import Mathlib

/-!
Verification development for the FragToPre preprocessing pipeline
(`im_binning.py` and `peak_picker_im.py`).

The Python source is shallowly embedded: floats are modelled as rationals,
Python's `int()` conversion as truncation toward zero on rationals, Python
list indexing (including the negative-index wrap-around) as `pyIdx`, and the
imperative loops as structural recursions or folds.  Fallible operations
(`ZeroDivisionError` on `bin_size = 0`, division by `num_bins = 0` during
setup) are modelled with `Option`.
-/

namespace FragToPre

/-- A point as produced by `get_points` in `im_binning.py`: retention time,
mass-to-charge, intensity and ion mobility, in that order. -/
structure Point where
  rt : ℚ
  mz : ℚ
  intensity : ℚ
  im : ℚ
deriving DecidableEq

/-- An input scan (OpenMS `MSSpectrum`): an MS level, a retention time, the
peak arrays (m/z and intensity) and the parallel ion-mobility float data
array. -/
structure Scan where
  msLevel : ℕ
  rt : ℚ
  mzs : List ℚ
  intensities : List ℚ
  ims : List ℚ
deriving DecidableEq

/-- `get_points(spec)`: zip the peak arrays with the ion-mobility side
channel (Python's `zip` truncates to the shortest input) and tag each
point with the scan's retention time. -/
def getPoints (s : Scan) : List Point :=
  ((s.mzs.zip s.intensities).zip s.ims).map fun x => ⟨s.rt, x.1.1, x.1.2, x.2⟩

/-- `point[3] < smallest` where `smallest` starts at `float('inf')`:
`none` plays the role of `inf`, so the comparison is true whenever the
accumulator is still `none`. -/
def ltInf (x : ℚ) : Option ℚ → Bool
  | none => true
  | some a => decide (x < a)

/-- One iteration of the inner loop of `get_extrema`: update the running
smallest (initially `inf`, modelled as `none`) and largest (initially
`-1.0`) ion-mobility values. -/
def extremaStep (acc : Option ℚ × ℚ) (p : Point) : Option ℚ × ℚ :=
  ((if ltInf p.im acc.1 then some p.im else acc.1),
   (if acc.2 < p.im then p.im else acc.2))

/-- `get_extrema(spectra)`: fold `extremaStep` over the points of every
scan of the experiment.  Note the source iterates over *all* scans,
with no MS-level filter. -/
def getExtrema (spectra : List Scan) : Option ℚ × ℚ :=
  spectra.foldl (fun acc s => (getPoints s).foldl extremaStep acc) (none, -1)

/-- All points of an experiment, in scan order. -/
def pointsOf (spectra : List Scan) : List Point :=
  spectra.flatMap getPoints

/-- The extrema computation as the specification describes it ("across
every sample in every scan with MS level 1"): restrict to MS-level-1 scans
first.  This definition follows the spec's words and exists only to be
compared with `getExtrema`, which is the code's behaviour. -/
def getExtremaMS1Spec (spectra : List Scan) : Option ℚ × ℚ :=
  getExtrema (spectra.filter fun s => s.msLevel == 1)

/-- The binning context assembled by `setup_bins`: globals `first_im`,
`last_im`, `bin_size` and `offset_im`, plus the configured `num_bins`. -/
structure BinCtx where
  first_im : ℚ
  last_im : ℚ
  bin_size : ℚ
  offset_im : ℚ
  num_bins : ℤ
deriving DecidableEq

/-- The computational core of `setup_bins`, taking the extrema as inputs:
`bin_size = (last_im - first_im) / num_bins` and
`offset_im = bin_size / 2.0 + first_im`.  Python raises
`ZeroDivisionError` when `num_bins = 0`, modelled by `none`; no other
validation of any kind is performed. -/
def setupBins (first last : ℚ) (nb : ℤ) : Option BinCtx :=
  if nb = 0 then none
  else
    some { first_im := first, last_im := last,
           bin_size := (last - first) / (nb : ℚ),
           offset_im := (last - first) / (nb : ℚ) / 2 + first,
           num_bins := nb }

/-- Python's `int()` applied to a (real-valued) quotient: truncation toward
zero. -/
def pyTrunc (q : ℚ) : ℤ :=
  Int.tdiv q.num q.den

/-- Resolution of a Python list index against a list of length `n`:
indices in `[0, n)` are used as-is, indices in `[-n, 0)` wrap around to
the end of the list, and anything else raises `IndexError` (`none`). -/
def pyIdx (n : ℕ) (i : ℤ) : Option ℕ :=
  if 0 ≤ i then (if i < (n : ℤ) then some i.toNat else none)
  else (if -(n : ℤ) ≤ i then some (i + n).toNat else none)

/-- Step 1 of `bin_spectrum`, first pass:
`bin_idx = int((im - first_im) / bin_size)` followed by the one-sided clamp
`if bin_idx >= num_bins: bin_idx = num_bins - 1`.  There is no lower
clamp. -/
def primaryIdx (ctx : BinCtx) (im : ℚ) : ℤ :=
  let r := pyTrunc ((im - ctx.first_im) / ctx.bin_size)
  if ctx.num_bins ≤ r then ctx.num_bins - 1 else r

/-- Step 1 of `bin_spectrum`, second pass: points below `offset_im` go to
bin 0, otherwise `bin_idx = int((im - offset_im) / bin_size) + 1` with the
one-sided clamp `if bin_idx > num_bins: bin_idx = num_bins`. -/
def secondaryIdx (ctx : BinCtx) (im : ℚ) : ℤ :=
  if im < ctx.offset_im then 0
  else
    let r := pyTrunc ((im - ctx.offset_im) / ctx.bin_size) + 1
    if ctx.num_bins < r then ctx.num_bins else r

/-- The relation used to sort points by ascending ion mobility
(`sorted(points, key=itemgetter(3))`, a stable sort). -/
def imLE (p q : Point) : Prop := p.im ≤ q.im

/-- The relation used to sort a bin's points by ascending mass-to-charge
(`sorted(temp_bins[i], key=itemgetter(1))`, a stable sort). -/
def mzLE (p q : Point) : Prop := p.mz ≤ q.mz

instance : DecidableRel imLE := fun p q => inferInstanceAs (Decidable (p.im ≤ q.im))

instance : DecidableRel mzLE := fun p q => inferInstanceAs (Decidable (p.mz ≤ q.mz))

instance : IsTotal Point imLE := ⟨fun p q => le_total p.im q.im⟩

instance : IsTrans Point imLE := ⟨fun _ _ _ h1 h2 => le_trans h1 h2⟩

instance : IsTotal Point mzLE := ⟨fun p q => le_total p.mz q.mz⟩

instance : IsTrans Point mzLE := ⟨fun _ _ _ h1 h2 => le_trans h1 h2⟩

/-- Stable sort of a scan's points by ascending ion mobility. -/
def sortByIm (l : List Point) : List Point := l.insertionSort imLE

/-- Stable sort of a bin's points by ascending mass-to-charge. -/
def sortByMz (l : List Point) : List Point := l.insertionSort mzLE

/-- The contents of primary bin `b` after step 1 of `bin_spectrum` on one
scan: the IM-sorted points whose computed (Python-resolved) bin index is
`b`, in iteration order. -/
def primaryBinContents (ctx : BinCtx) (pts : List Point) (b : ℕ) : List Point :=
  (sortByIm pts).filter fun p =>
    decide (pyIdx ctx.num_bins.toNat (primaryIdx ctx p.im) = some b)

/-- The contents of secondary bin `b` (of the `num_bins + 1` second-pass
bins) after step 1 of `bin_spectrum` on one scan. -/
def secondaryBinContents (ctx : BinCtx) (pts : List Point) (b : ℕ) : List Point :=
  (sortByIm pts).filter fun p =>
    decide (pyIdx (ctx.num_bins.toNat + 1) (secondaryIdx ctx p.im) = some b)

/-- All primary bins (`temp_bins`) produced by step 1 for one scan. -/
def primaryBins (ctx : BinCtx) (pts : List Point) : List (List Point) :=
  (List.range ctx.num_bins.toNat).map (primaryBinContents ctx pts)

/-- All secondary bins (`temp_bins2`) produced by step 1 for one scan. -/
def secondaryBins (ctx : BinCtx) (pts : List Point) : List (List Point) :=
  (List.range (ctx.num_bins.toNat + 1)).map (secondaryBinContents ctx pts)

/-- The run-rewriting loop of step 2 of `bin_spectrum`: walk an (m/z
sorted) point list, and overwrite the intensity of every member of each
maximal run of equal m/z with the run's summed intensity.  The list
argument is consumed run by run; `fuel` bounds the recursion and is always
instantiated with the list's length. -/
def aggRunsF : ℕ → List Point → List Point
  | _, [] => []
  | 0, _ :: _ => []
  | fuel + 1, p :: rest =>
    let run := p :: rest.takeWhile fun q => decide (q.mz = p.mz)
    let s := (run.map Point.intensity).sum
    run.map (fun q => { q with intensity := s }) ++
      aggRunsF fuel (rest.dropWhile fun q => decide (q.mz = p.mz))

/-- Step 2 of `bin_spectrum` for one bin and one scan (the Intensity
Aggregator): sort the bin's point list by m/z, then rewrite each equal-m/z
run's intensities with the run's sum. -/
def aggregate (l : List Point) : List Point :=
  aggRunsF (sortByMz l).length (sortByMz l)

/-- `bin_spectrum`'s step 1 with its failure mode: binning a nonempty point
list divides by `bin_size` at the very first point, so `bin_size = 0`
raises `ZeroDivisionError` (modelled as `none`).  An empty point list never
reaches the division and succeeds trivially. -/
def binScanChecked (ctx : BinCtx) (pts : List Point) :
    Option (List (List Point) × List (List Point)) :=
  if ctx.bin_size = 0 ∧ pts ≠ [] then none
  else some (primaryBins ctx pts, secondaryBins ctx pts)

/-- An output spectrum as built in step 2.5 of `bin_spectrum`: retention
time, `(mz, intensity)` peak pairs, and the parallel ion-mobility float
data array. -/
structure Spectrum where
  rt : ℚ
  peaks : List (ℚ × ℚ)
  ims : List ℚ
deriving DecidableEq

/-- The aggregated contents of primary bin `b` for one scan (the list that
step 2.5 transposes into a spectrum). -/
def binnedAggregated (ctx : BinCtx) (pts : List Point) (b : ℕ) : List Point :=
  aggregate (primaryBinContents ctx pts b)

/-- Step 2.5 of `bin_spectrum`: build a spectrum from an aggregated bin
(`set_peaks` on the transposed m/z / intensity columns plus the
ion-mobility float data array). -/
def mkSpec (rt : ℚ) (pts : List Point) : Spectrum :=
  ⟨rt, pts.map (fun p => (p.mz, p.intensity)), pts.map Point.im⟩

/-- The effect of `bin_spectrum(spec)` on the first-pass experiment
collections `exps` (modelled as a map from bin index to that bin's
spectrum list): every nonempty primary bin of this scan gets one new
spectrum appended; empty bins are skipped by the
`if len(temp_bins[i]) == 0: continue` guard. -/
def processScanPass1 (ctx : BinCtx) (exps : ℕ → List Spectrum) (s : Scan) :
    ℕ → List Spectrum :=
  fun b =>
    if b < ctx.num_bins.toNat ∧ primaryBinContents ctx (getPoints s) b ≠ [] then
      exps b ++ [mkSpec s.rt (binnedAggregated ctx (getPoints s) b)]
    else exps b

/-- The main loop of `im_binning.py`: call `bin_spectrum` on every
MS-level-1 scan in input order, skipping all other scans. -/
def processScans (ctx : BinCtx) (scans : List Scan) (exps0 : ℕ → List Spectrum) :
    ℕ → List Spectrum :=
  scans.foldl (fun e s => if s.msLevel = 1 then processScanPass1 ctx e s else e) exps0

/-! ## Adaptive peak picker (`peak_picker_im.py`) -/

/-- One sample of a position-sorted spectrum inside `peak_pick`, together
with its `picked` flag (the source keeps the flags in a parallel boolean
array; here they travel with the sample). -/
structure PSample where
  pos : ℚ
  intensity : ℚ
  picked : Bool
deriving DecidableEq

/-- The configuration of `peak_pick`: `min_req`, `window_size` (default
`float('Inf')`, modelled as `none`), `small_peak` and `strict`.  The
`sequential` flag only selects the seed visitation order, which is passed
separately to `pickLoop`. -/
structure PPParams where
  min_req : ℕ
  window_size : Option ℚ
  small_peak : ℚ
  strict : Bool
deriving DecidableEq

/-- `abs(spec[j].getPos() - init_position) > window_size`, where an
unbounded window (`none`, i.e. `float('Inf')`) is never exceeded. -/
def exceedsWindow (w : Option ℚ) (d : ℚ) : Bool :=
  match w with
  | none => false
  | some v => decide (v < d)

/-- The mutable state of one directional walk of `peak_pick`: the number
of accumulated samples (`left_picked` / `right_picked`), the current
required count (`threshold`), the running `total_intensity`, and the
one-time concession flag (`sflag`). -/
structure WSt where
  count : ℕ
  threshold : ℕ
  total : ℚ
  sflag : Bool
deriving DecidableEq

/-- Why a directional walk ended: it hit an already-picked sample, left
the window, aborted on a disallowed intensity increase, stopped satisfied
on the small-peak condition, or ran out of samples. -/
inductive WExit
  | pickedStop
  | windowStop
  | incAbort
  | satisfied
  | exhausted
deriving DecidableEq

/-- One directional walk of `peak_pick` (lines 90-112 for the left
direction, 121-141 for the right).  The list holds the samples in walk
order (away from the seed); `prev` is the intensity of the previously
visited sample (initially the seed's), and `first` is true exactly at the
seed's immediate neighbour (`j + 1 == i`, resp. `j - 1 == i`). -/
def walk (P : PPParams) (initInt initPos : ℚ) :
    List PSample → ℚ → Bool → WSt → WSt × WExit
  | [], _, _, st => (st, .exhausted)
  | s :: rest, prev, first, st =>
    if s.picked then (st, .pickedStop)
    else if exceedsWindow P.window_size |s.pos - initPos| then (st, .windowStop)
    else if prev < s.intensity then
      if P.strict || st.sflag || first then (st, .incAbort)
      else
        let st1 : WSt := ⟨st.count + 1, st.threshold + 1, st.total + s.intensity, true⟩
        if st1.threshold ≤ st1.count ∧ s.intensity ≤ initInt * P.small_peak then
          (st1, .satisfied)
        else walk P initInt initPos rest s.intensity false st1
    else
      let st1 : WSt := ⟨st.count + 1, st.threshold, st.total + s.intensity, st.sflag⟩
      if st1.threshold ≤ st1.count ∧ s.intensity ≤ initInt * P.small_peak then
        (st1, .satisfied)
      else walk P initInt initPos rest s.intensity false st1

/-- An output peak of the picker (`Peak1D`): position and intensity. -/
structure Peak where
  pos : ℚ
  intensity : ℚ
deriving DecidableEq

/-- The inclusive index span `[low, high]` of a position-sorted sample
list. -/
def spanSlice (l : List PSample) (low high : ℕ) : List PSample :=
  (l.drop low).take (high + 1 - low)

/-- The summed raw intensity of the samples in the span `[low, high]`. -/
def spanIntensity (l : List PSample) (low high : ℕ) : ℚ :=
  ((spanSlice l low high).map PSample.intensity).sum

/-- The final loop of an accepted seed: `Σ pos_j * (intensity_j / total)`
over the span `[low, high]`. -/
def spanWeightedPos (l : List PSample) (low high : ℕ) (total : ℚ) : ℚ :=
  ((spanSlice l low high).map fun s => s.pos * (s.intensity / total)).sum

/-- Processing of a single seed `i` by `peak_pick`: skip a picked seed,
walk left over the reversed prefix, reject if the left count missed its
threshold, walk right over the suffix (continuing the intensity
accumulator, with a fresh concession and threshold), reject likewise, and
otherwise emit the composite peak together with its accepted span. -/
def processSeed (P : PPParams) (samples : List PSample) (i : ℕ) :
    Option (Peak × ℕ × ℕ) :=
  match samples[i]? with
  | none => none
  | some s0 =>
    if s0.picked then none
    else
      let stL := (walk P s0.intensity s0.pos ((samples.take i).reverse) s0.intensity
        true ⟨0, P.min_req, s0.intensity, false⟩).1
      if stL.count < stL.threshold then none
      else
        let stR := (walk P s0.intensity s0.pos (samples.drop (i + 1)) s0.intensity
          true ⟨0, P.min_req, stL.total, false⟩).1
        if stR.count < stR.threshold then none
        else
          some (⟨spanWeightedPos samples (i - stL.count) (i + stR.count) stR.total,
                 stR.total⟩,
                i - stL.count, i + stR.count)

/-- Mark every sample whose index lies in `[low, high]` as picked
(`picked[j] = True` over the accepted span); `k` is the index of the
list's head. -/
def markSpan (low high : ℕ) : ℕ → List PSample → List PSample
  | _, [] => []
  | k, s :: rest =>
    (if low ≤ k ∧ k ≤ high then { s with picked := true } else s) ::
      markSpan low high (k + 1) rest

/-- The seed loop of `peak_pick` on one scan: visit the seed indices in
the given order; a rejected or skipped seed changes nothing, an accepted
seed marks its span picked and appends its composite peak.  The emitted
peaks are recorded together with their accepted spans. -/
def pickLoop (P : PPParams) :
    List ℕ → List PSample → List (Peak × ℕ × ℕ) →
      List PSample × List (Peak × ℕ × ℕ)
  | [], samples, acc => (samples, acc)
  | i :: order, samples, acc =>
    match processSeed P samples i with
    | none => pickLoop P order samples acc
    | some (pk, low, high) =>
        pickLoop P order (markSpan low high 0 samples) (acc ++ [(pk, low, high)])

/-- The seed visitation order used when `sequential=True`: index order. -/
def seqOrder (n : ℕ) : List ℕ := List.range n

/-- The `picked` flag of the sample at index `k` (out-of-range indices
count as picked, which only strengthens the statements using this). -/
def pickedAt (l : List PSample) (k : ℕ) : Bool :=
  match l[k]? with
  | some s => s.picked
  | none => true

/-- Two accepted spans are disjoint as index intervals. -/
def spanDisj (a b : Peak × ℕ × ℕ) : Prop :=
  a.2.2 < b.2.1 ∨ b.2.2 < a.2.1

/-! ## Concrete fixtures used by witnesses and counterexamples -/

/-- A context with `first_im = 0`, `last_im = 4`, four bins of width 1. -/
def ctx2 : BinCtx := ⟨0, 4, 1, 1/2, 4⟩

/-- Two points sharing the exact same m/z, with intensities 1 and 2. -/
def c1list : List Point := [⟨0, 1, 1, 0⟩, ⟨0, 1, 2, 0⟩]

/-- Two points with distinct m/z values. -/
def distinct2 : List Point := [⟨0, 1, 2, 0⟩, ⟨0, 2, 3, 0⟩]

/-- Three points with ion mobilities 0, 2 and 4 (the full range of
`ctx2`). -/
def pts7 : List Point := [⟨0, 1, 1, 0⟩, ⟨0, 1, 1, 2⟩, ⟨0, 1, 1, 4⟩]

/-- A three-sample spectrum with a local maximum of intensity 10 at
position 100 flanked by intensities 6 and 4. -/
def samples4 : List PSample := [⟨999/10, 6, false⟩, ⟨100, 10, false⟩, ⟨1001/10, 4, false⟩]

/-- Default picker parameters: `min_req = 1`, unbounded window,
`small_peak = 0.1`, `strict = true`. -/
def P4 : PPParams := ⟨1, none, 1/10, true⟩

/-- An MS-level-1 scan with a single point at ion mobility 0.2 (which
falls into primary bin 0 of `ctx2`). -/
def scan9 : Scan := ⟨1, 0, [1], [5], [1/5]⟩

/-- An MS-level-1 scan whose only sample has ion mobility 5. -/
def s5a : Scan := ⟨1, 0, [1], [1], [5]⟩

/-- An MS-level-2 scan whose only sample has ion mobility 100. -/
def s5b : Scan := ⟨2, 0, [1], [1], [100]⟩

/-! ## Helper lemmas -/

attribute [local semireducible] Rat.mul Rat.inv Rat.add Rat.sub Rat.ofScientific

theorem pyTrunc_of_nonneg {q : ℚ} (h : 0 ≤ q) : pyTrunc q = ⌊q⌋ := by
  rw [pyTrunc, Rat.floor_def, Int.tdiv_eq_ediv (Rat.num_nonneg.mpr h) (by positivity)]

theorem pyTrunc_of_neg {q : ℚ} (h : q < 0) : pyTrunc q = ⌈q⌉ := by
  have h1 : (-q).num = -q.num := Rat.neg_num q
  have h2 : (-q).den = q.den := Rat.neg_den q
  have h3 : pyTrunc (-q) = ⌊-q⌋ := pyTrunc_of_nonneg (by linarith)
  rw [pyTrunc, h1, h2, Int.neg_tdiv, Int.floor_neg] at h3
  rw [pyTrunc]
  omega

theorem primaryIdx_eq_min (ctx : BinCtx) (im : ℚ) (hb : 0 < ctx.bin_size)
    (him : ctx.first_im ≤ im) :
    primaryIdx ctx im = min ⌊(im - ctx.first_im) / ctx.bin_size⌋ (ctx.num_bins - 1) := by
  have hq : 0 ≤ (im - ctx.first_im) / ctx.bin_size := div_nonneg (by linarith) hb.le
  rw [primaryIdx, pyTrunc_of_nonneg hq]
  rcases le_or_lt ctx.num_bins ⌊(im - ctx.first_im) / ctx.bin_size⌋ with hle | hlt
  · rw [if_pos hle, min_eq_right (by omega)]
  · rw [if_neg (by omega), min_eq_left (by omega)]

theorem primaryIdx_range (ctx : BinCtx) (im : ℚ) (hn : 0 < ctx.num_bins)
    (hb : 0 < ctx.bin_size) (him : ctx.first_im ≤ im) :
    0 ≤ primaryIdx ctx im ∧ primaryIdx ctx im < ctx.num_bins := by
  have hq : 0 ≤ (im - ctx.first_im) / ctx.bin_size := div_nonneg (by linarith) hb.le
  have hf : 0 ≤ ⌊(im - ctx.first_im) / ctx.bin_size⌋ := Int.floor_nonneg.mpr hq
  rw [primaryIdx_eq_min ctx im hb him]
  omega

theorem secondaryIdx_range (ctx : BinCtx) (im : ℚ) (hn : 0 < ctx.num_bins)
    (hb : 0 < ctx.bin_size) :
    0 ≤ secondaryIdx ctx im ∧ secondaryIdx ctx im ≤ ctx.num_bins := by
  rw [secondaryIdx]
  rcases lt_or_le im ctx.offset_im with hlt | hle
  · rw [if_pos hlt]
    omega
  · rw [if_neg (not_lt.mpr hle)]
    have hq : 0 ≤ (im - ctx.offset_im) / ctx.bin_size := div_nonneg (by linarith) hb.le
    have hf : 0 ≤ ⌊(im - ctx.offset_im) / ctx.bin_size⌋ := Int.floor_nonneg.mpr hq
    rw [pyTrunc_of_nonneg hq]
    rcases lt_or_le ctx.num_bins (⌊(im - ctx.offset_im) / ctx.bin_size⌋ + 1) with h1 | h1
    · rw [if_pos h1]; omega
    · rw [if_neg (not_lt.mpr h1)]; omega

theorem pyIdx_of_range (n : ℕ) (i : ℤ) (h0 : 0 ≤ i) (h1 : i < (n : ℤ)) :
    pyIdx n i = some i.toNat ∧ i.toNat < n := by
  rw [pyIdx, if_pos h0, if_pos h1]
  exact ⟨rfl, by omega⟩

/-! ### Extent scanner lemmas -/

theorem extFold_largest_mono (pts : List Point) :
    ∀ acc : Option ℚ × ℚ, acc.2 ≤ (pts.foldl extremaStep acc).2 := by
  induction pts with
  | nil => intro acc; simp
  | cons p rest ih =>
    intro acc
    rw [List.foldl_cons]
    refine le_trans ?_ (ih (extremaStep acc p))
    rw [extremaStep]
    dsimp only
    split
    · exact le_of_lt (by assumption)
    · exact le_refl _

theorem extFold_largest_ub (pts : List Point) :
    ∀ (acc : Option ℚ × ℚ) (p : Point), p ∈ pts → p.im ≤ (pts.foldl extremaStep acc).2 := by
  induction pts with
  | nil => intro _ _ h; exact absurd h (List.not_mem_nil _)
  | cons q rest ih =>
    intro acc p hp
    rw [List.foldl_cons]
    rcases List.mem_cons.mp hp with h | h
    · subst h
      refine le_trans ?_ (extFold_largest_mono rest (extremaStep acc p))
      rw [extremaStep]
      dsimp only
      split
      · exact le_refl _
      · exact le_of_not_lt (by assumption)
    · exact ih (extremaStep acc q) p h

theorem extFold_smallest_mono (pts : List Point) :
    ∀ (acc : Option ℚ × ℚ) (a : ℚ), acc.1 = some a →
      ∃ v, (pts.foldl extremaStep acc).1 = some v ∧ v ≤ a := by
  induction pts with
  | nil => intro acc a h; exact ⟨a, h, le_refl a⟩
  | cons p rest ih =>
    intro acc a h
    rw [List.foldl_cons]
    rcases hc : ltInf p.im acc.1 with _ | _
    · have : (extremaStep acc p).1 = some a := by rw [extremaStep, hc]; simpa using h
      exact ih (extremaStep acc p) a this
    · have hlt : p.im < a := by
        rw [h] at hc
        simpa [ltInf] using hc
      have : (extremaStep acc p).1 = some p.im := by rw [extremaStep, hc]; simp
      obtain ⟨v, hv, hva⟩ := ih (extremaStep acc p) p.im this
      exact ⟨v, hv, le_trans hva (le_of_lt hlt)⟩

theorem extFold_smallest_mem (pts : List Point) :
    ∀ (acc : Option ℚ × ℚ) (p : Point), p ∈ pts →
      ∃ v, (pts.foldl extremaStep acc).1 = some v ∧ v ≤ p.im := by
  induction pts with
  | nil => intro _ _ h; exact absurd h (List.not_mem_nil _)
  | cons q rest ih =>
    intro acc p hp
    rw [List.foldl_cons]
    rcases List.mem_cons.mp hp with h | h
    · subst h
      rcases hc : ltInf p.im acc.1 with _ | _
      · have hsome : ∃ a, acc.1 = some a ∧ a ≤ p.im := by
          rcases ha : acc.1 with _ | a
          · rw [ha] at hc; simp [ltInf] at hc
          · rw [ha] at hc
            refine ⟨a, rfl, ?_⟩
            have := of_decide_eq_false hc
            exact le_of_not_lt this
        obtain ⟨a, ha, hap⟩ := hsome
        have : (extremaStep acc p).1 = some a := by rw [extremaStep, hc]; simpa using ha
        obtain ⟨v, hv, hva⟩ := extFold_smallest_mono rest (extremaStep acc p) a this
        exact ⟨v, hv, le_trans hva hap⟩
      · have : (extremaStep acc p).1 = some p.im := by rw [extremaStep, hc]; simp
        exact extFold_smallest_mono rest (extremaStep acc p) p.im this
    · exact ih (extremaStep acc q) p h

theorem getExtrema_eq_flat (spectra : List Scan) :
    getExtrema spectra = (pointsOf spectra).foldl extremaStep (none, -1) := by
  rw [getExtrema, pointsOf]
  generalize (none, (-1 : ℚ)) = acc
  induction spectra generalizing acc with
  | nil => simp
  | cons s rest ih =>
    rw [List.foldl_cons, List.flatMap_cons, List.foldl_append, ih]

/-! ### Aggregation lemmas -/

theorem takeWhile_eq_nil_of_all {α : Type} (l : List α) (f : α → Bool)
    (h : ∀ x ∈ l, f x = false) : l.takeWhile f = [] := by
  cases l with
  | nil => rfl
  | cons a t =>
    rw [List.takeWhile_cons, h a (List.mem_cons_self a t)]
    simp

theorem dropWhile_eq_self_of_all {α : Type} (l : List α) (f : α → Bool)
    (h : ∀ x ∈ l, f x = false) : l.dropWhile f = l := by
  cases l with
  | nil => rfl
  | cons a t =>
    rw [List.dropWhile_cons, h a (List.mem_cons_self a t)]
    simp

theorem sortByMz_perm (l : List Point) : (sortByMz l).Perm l :=
  List.perm_insertionSort mzLE l

theorem sortByIm_perm (l : List Point) : (sortByIm l).Perm l :=
  List.perm_insertionSort imLE l

theorem pairwise_mz_sort (l : List Point) (h : l.Pairwise fun a b => a.mz ≠ b.mz) :
    (sortByMz l).Pairwise fun a b => a.mz ≠ b.mz :=
  ((sortByMz_perm l).pairwise_iff fun hxy => hxy.symm).mpr h

theorem aggRunsF_pairwise_eq :
    ∀ (fuel : ℕ) (l : List Point), l.length ≤ fuel →
      (l.Pairwise fun a b => a.mz ≠ b.mz) → aggRunsF fuel l = l := by
  intro fuel
  induction fuel with
  | zero =>
    intro l hlen _
    have : l = [] := List.length_eq_zero.mp (Nat.le_zero.mp hlen)
    subst this
    rfl
  | succ fuel ih =>
    intro l hlen hpair
    match l with
    | [] => rfl
    | p :: rest =>
      rw [List.pairwise_cons] at hpair
      obtain ⟨hhead, htail⟩ := hpair
      have hne : ∀ q ∈ rest, (fun q => decide (q.mz = p.mz)) q = false := by
        intro q hq
        exact decide_eq_false fun hqp => (hhead q hq) hqp.symm
      have hrun : (rest.takeWhile fun q => decide (q.mz = p.mz)) = [] :=
        takeWhile_eq_nil_of_all rest _ hne
      have hdrop : (rest.dropWhile fun q => decide (q.mz = p.mz)) = rest :=
        dropWhile_eq_self_of_all rest _ hne
      rw [aggRunsF, hrun, hdrop]
      have hlen' : rest.length ≤ fuel := by
        simp only [List.length_cons] at hlen
        omega
      rw [ih rest hlen' htail]
      simp

theorem aggregate_of_pairwise (l : List Point) (h : l.Pairwise fun a b => a.mz ≠ b.mz) :
    aggregate l = sortByMz l :=
  aggRunsF_pairwise_eq (sortByMz l).length (sortByMz l) (le_refl _) (pairwise_mz_sort l h)

/-! ## Claim C1: intensity conservation of the Aggregator -/

/-- C1, counterexample.  On a bin-scan list with two points of exactly
equal m/z (intensities 1 and 2), the Aggregator overwrites *both* rows
with the run sum 3, so the total summed intensity jumps from 3 to 6:
aggregation does not conserve summed intensity on equal-m/z runs. -/
theorem C1_counterexample :
    ((aggregate c1list).map Point.intensity).sum ≠ (c1list.map Point.intensity).sum := by
  decide

/-- C1, amended.  The Aggregator conserves the total summed intensity of a
bin-scan list exactly when no two of its points share an exactly equal
mass-to-charge; in that case every equal-m/z run is a singleton and each
intensity is rewritten to itself.  (For a run of `k ≥ 2` points the run's
sum is written into all `k` rows, multiplying that run's contribution.) -/
theorem C1_conservation_distinct (l : List Point)
    (h : l.Pairwise fun a b => a.mz ≠ b.mz) :
    ((aggregate l).map Point.intensity).sum = (l.map Point.intensity).sum := by
  rw [aggregate_of_pairwise l h]
  exact ((sortByMz_perm l).map Point.intensity).sum_eq

/-- C1, witness: the amended conservation law at a concrete two-point list
with distinct m/z values. -/
theorem C1_witness :
    ((aggregate distinct2).map Point.intensity).sum = (distinct2.map Point.intensity).sum :=
  C1_conservation_distinct distinct2 (by decide)

/-! ## Claim C2: primary bin assignment -/

/-- C2, counterexample.  In `ctx2` (`first_im = 0`, `bin_size = 1`,
`num_bins = 4`), a point with ion mobility `-3/2` (below `first_im`) gets
`int(-1.5) = -1` — Python's `int()` truncates toward zero and the code has
no lower clamp — so the computed index is `-1`, not the claimed
`clamp(floor(-1.5)) = 0`; it is not in `[0, num_bins - 1]`, and Python's
negative indexing wraps the append into bin 3. -/
theorem C2_counterexample :
    primaryIdx ctx2 (-3/2) = -1 ∧ ¬ (0 ≤ primaryIdx ctx2 (-3/2)) ∧
    pyIdx 4 (primaryIdx ctx2 (-3/2)) = some 3 := by
  decide

/-- C2, amended.  For every point with `im ≥ first_im` (which covers every
point the pipeline can actually hand to the binner, since `first_im` is a
global minimum), the primary bin index equals
`floor((im - first_im) / bin_size)` clamped above to `num_bins - 1`, is
always in `[0, num_bins - 1]`, and a point with `ion_mobility == last_im`
is assigned to bin `num_bins - 1`.  Points below `first_im` are *not*
clamped to 0 (see the counterexample). -/
theorem C2_primary_clamp (ctx : BinCtx) (im : ℚ)
    (hn : 0 < ctx.num_bins) (hb : 0 < ctx.bin_size) (him : ctx.first_im ≤ im) :
    primaryIdx ctx im = min ⌊(im - ctx.first_im) / ctx.bin_size⌋ (ctx.num_bins - 1) ∧
    0 ≤ primaryIdx ctx im ∧ primaryIdx ctx im < ctx.num_bins ∧
    (ctx.bin_size = (ctx.last_im - ctx.first_im) / (ctx.num_bins : ℚ) →
      primaryIdx ctx ctx.last_im = ctx.num_bins - 1) := by
  obtain ⟨h0, h1⟩ := primaryIdx_range ctx im hn hb him
  refine ⟨primaryIdx_eq_min ctx im hb him, h0, h1, fun hbs => ?_⟩
  have hnb0 : (ctx.num_bins : ℚ) ≠ 0 := by
    have : (0 : ℚ) < (ctx.num_bins : ℚ) := by exact_mod_cast hn
    exact ne_of_gt this
  have hdelta : ctx.last_im - ctx.first_im = ctx.bin_size * (ctx.num_bins : ℚ) := by
    rw [hbs]
    field_simp
  have hquot : (ctx.last_im - ctx.first_im) / ctx.bin_size = (ctx.num_bins : ℚ) := by
    rw [hdelta, mul_div_cancel_left₀ _ (ne_of_gt hb)]
  rw [primaryIdx, hquot]
  have htr : pyTrunc ((ctx.num_bins : ℤ) : ℚ) = ctx.num_bins := by
    rw [pyTrunc_of_nonneg (by exact_mod_cast hn.le), Int.floor_intCast]
  rw [htr, if_pos (le_refl _)]

/-- C2, witness: the amended primary-assignment characterization applied
to `ctx2` and a concrete in-range point. -/
theorem C2_witness :
    primaryIdx ctx2 3 = min ⌊((3 : ℚ) - ctx2.first_im) / ctx2.bin_size⌋ (ctx2.num_bins - 1) ∧
    0 ≤ primaryIdx ctx2 3 ∧ primaryIdx ctx2 3 < ctx2.num_bins ∧
    (ctx2.bin_size = (ctx2.last_im - ctx2.first_im) / (ctx2.num_bins : ℚ) →
      primaryIdx ctx2 ctx2.last_im = ctx2.num_bins - 1) :=
  C2_primary_clamp ctx2 3 (by decide) (by decide) (by decide)

/-! ## Claim C5: the Extent Scanner and MS levels -/

/-- C5, counterexample.  `get_extrema` iterates over *every* scan with no
MS-level filter: on an experiment holding an MS-level-1 scan (ion mobility
5) and an MS-level-2 scan (ion mobility 100), the code computes
`(5, 100)`, whereas restricting to MS-level-1 scans (the spec's words,
`getExtremaMS1Spec`) yields `(5, 5)` — the higher-level scan does
influence the result. -/
theorem C5_counterexample :
    getExtrema [s5a, s5b] ≠ getExtremaMS1Spec [s5a, s5b] := by
  decide

/-- C5, amended.  The extrema are taken over the samples of *all* scans,
regardless of MS level: every sample of every scan (including MS levels
greater than 1) bounds the computed pair — the smallest value is some
rational at most every sample's ion mobility, and the largest is at least
every sample's ion mobility. -/
theorem C5_extrema_bounds (spectra : List Scan) (s : Scan) (p : Point)
    (hs : s ∈ spectra) (hp : p ∈ getPoints s) :
    (getExtrema spectra).1 ≠ none ∧
    (getExtrema spectra).1.getD 0 ≤ p.im ∧
    p.im ≤ (getExtrema spectra).2 := by
  have hmem : p ∈ pointsOf spectra := by
    rw [pointsOf]
    exact List.mem_flatMap.mpr ⟨s, hs, hp⟩
  rw [getExtrema_eq_flat]
  obtain ⟨v, hv, hvp⟩ := extFold_smallest_mem (pointsOf spectra) (none, -1) p hmem
  refine ⟨by rw [hv]; simp, by rw [hv]; simpa using hvp, ?_⟩
  exact extFold_largest_ub (pointsOf spectra) (none, -1) p hmem

/-- C5, witness: the bounds at a concrete experiment consisting of a
single MS-level-2 scan — its sample (ion mobility 100) bounds the computed
extrema, showing higher-level scans are included. -/
theorem C5_witness :
    (getExtrema [s5b]).1 ≠ none ∧
    (getExtrema [s5b]).1.getD 0 ≤ (Point.mk 0 1 1 100).im ∧
    (Point.mk 0 1 1 100).im ≤ (getExtrema [s5b]).2 :=
  C5_extrema_bounds [s5b] s5b ⟨0, 1, 1, 100⟩ (by decide) (by decide)

/-! ## Claim C6: configuration validation -/

/-- C6, counterexample.  A degenerate configuration (`first_im = last_im
= 1`, `num_bins = 2`) is *not* rejected before binning: `setup_bins`
happily returns a context with `bin_size = 0`, and the failure (a
`ZeroDivisionError`) only surfaces when `bin_spectrum` bins the first
nonempty scan. -/
theorem C6_counterexample :
    setupBins 1 1 2 = some ⟨1, 1, 0, 1, 2⟩ ∧
    binScanChecked ⟨1, 1, 0, 1, 2⟩ [⟨0, 1, 1, 1⟩] = none := by
  decide

/-- C6, amended.  The code performs no configuration validation at all:
setup fails (with a `ZeroDivisionError`, not a `ConfigurationError`) if
and only if `num_bins = 0`; any other configuration is accepted, and for a
degenerate ion-mobility range (`last_im = first_im`) the returned context
has `bin_size = 0`, so binning any nonempty scan fails with a division by
zero mid-processing rather than being rejected up front. -/
theorem C6_no_validation (first last : ℚ) (nb : ℤ) :
    (setupBins first last nb = none ↔ nb = 0) ∧
    (∀ ctx, setupBins first last nb = some ctx → last = first →
      ∀ pts : List Point, pts ≠ [] → binScanChecked ctx pts = none) := by
  constructor
  · rw [setupBins]
    split
    · simpa using (by assumption)
    · simp
      assumption
  · intro ctx hc hdeg pts hne
    rw [setupBins] at hc
    split at hc
    · exact absurd hc (by simp)
    · have hctx := Option.some.inj hc
      have hbs : ctx.bin_size = 0 := by
        rw [← hctx, hdeg]
        simp
      rw [binScanChecked, if_pos ⟨hbs, hne⟩]

/-- C6, witness: the no-validation characterization applied to the
degenerate configuration `first = last = 1`, `num_bins = 2` and a
one-point scan. -/
theorem C6_witness :
    binScanChecked ⟨1, 1, 0, 1, 2⟩ [⟨0, 2, 3, 1⟩] = none :=
  (C6_no_validation 1 1 2).2 ⟨1, 1, 0, 1, 2⟩ (by decide) rfl [⟨0, 2, 3, 1⟩] (by decide)

/-! ## Claim C8: idempotence of the Aggregator on distinct-m/z lists -/

/-- C8.  On a point list in which no two entries share an exactly equal
mass-to-charge, applying the aggregation step (stable sort by m/z, then
sum intensities over equal-m/z runs) twice produces exactly the same list
as applying it once: the first pass reduces to sorting, and re-sorting a
sorted list (and re-aggregating singleton runs) changes nothing. -/
theorem C8_idempotent (l : List Point) (h : l.Pairwise fun a b => a.mz ≠ b.mz) :
    aggregate (aggregate l) = aggregate l := by
  rw [aggregate_of_pairwise l h]
  have hs := pairwise_mz_sort l h
  rw [aggregate_of_pairwise (sortByMz l) hs]
  have hsorted : List.Sorted mzLE (sortByMz l) := List.sorted_insertionSort mzLE l
  exact List.Sorted.insertionSort_eq hsorted

/-- C8, witness: idempotence at a concrete two-point list with distinct
m/z values. -/
theorem C8_witness : aggregate (aggregate distinct2) = aggregate distinct2 :=
  C8_idempotent distinct2 (by decide)

/-! ## Claim C7: partition completeness of the Dual-Pass Binner -/

theorem sum_map_range_eq_finset (m : ℕ) (f : ℕ → ℕ) :
    ((List.range m).map f).sum = Finset.sum (Finset.range m) f := by
  induction m with
  | zero => simp
  | succ n ih =>
    rw [List.range_succ, List.map_append, List.sum_append, Finset.sum_range_succ, ih]
    simp

theorem filter_length_partition {α : Type} (g : α → Option ℕ) (m : ℕ) :
    ∀ l : List α, (∀ p ∈ l, ∃ b, b < m ∧ g p = some b) →
      ((List.range m).map fun b => (l.filter fun p => decide (g p = some b)).length).sum =
        l.length := by
  intro l
  induction l with
  | nil => intro _; simp
  | cons p rest ih =>
    intro h
    obtain ⟨b0, hb0, hg⟩ := h p (List.mem_cons_self p rest)
    have hrest := ih fun q hq => h q (List.mem_cons_of_mem p hq)
    rw [sum_map_range_eq_finset] at hrest ⊢
    have hterm : ∀ b ∈ Finset.range m,
        ((p :: rest).filter fun q => decide (g q = some b)).length =
          (if b0 = b then 1 else 0) + (rest.filter fun q => decide (g q = some b)).length := by
      intro b _
      rw [List.filter_cons]
      by_cases hb : b0 = b
      · subst hb
        rw [hg]
        simp [Nat.add_comm]
      · have hgb : ¬ (g p = some b) := by
          rw [hg]
          simpa using hb
        simp [hgb, hb]
    rw [Finset.sum_congr rfl hterm, Finset.sum_add_distrib, Finset.sum_ite_eq, hrest,
      if_pos (Finset.mem_range.mpr hb0)]
    simp [Nat.add_comm]

/-- C7.  For every scan whose points all lie at or above `first_im` (true
of every scan the pipeline processes, since `first_im` is a global
minimum), step 1 of `bin_spectrum` places each point in exactly one
primary bin and exactly one secondary bin: the bin sizes sum to the
scan's point count in both passes. -/
theorem C7_partition (ctx : BinCtx) (pts : List Point)
    (hn : 0 < ctx.num_bins) (hb : 0 < ctx.bin_size)
    (him : ∀ p ∈ pts, ctx.first_im ≤ p.im) :
    ((primaryBins ctx pts).map List.length).sum = pts.length ∧
    ((secondaryBins ctx pts).map List.length).sum = pts.length := by
  have hlen : (sortByIm pts).length = pts.length := (sortByIm_perm pts).length_eq
  constructor
  · rw [primaryBins, List.map_map]
    have := filter_length_partition
      (fun p : Point => pyIdx ctx.num_bins.toNat (primaryIdx ctx p.im))
      ctx.num_bins.toNat (sortByIm pts) ?_
    · rw [← hlen, ← this]
      rfl
    · intro p hp
      have hpm : p ∈ pts := ((sortByIm_perm pts).mem_iff).mp hp
      obtain ⟨h0, h1⟩ := primaryIdx_range ctx p.im hn hb (him p hpm)
      have h1' : primaryIdx ctx p.im < (ctx.num_bins.toNat : ℤ) := by omega
      obtain ⟨heq, hlt⟩ := pyIdx_of_range ctx.num_bins.toNat (primaryIdx ctx p.im) h0 h1'
      exact ⟨(primaryIdx ctx p.im).toNat, hlt, heq⟩
  · rw [secondaryBins, List.map_map]
    have := filter_length_partition
      (fun p : Point => pyIdx (ctx.num_bins.toNat + 1) (secondaryIdx ctx p.im))
      (ctx.num_bins.toNat + 1) (sortByIm pts) ?_
    · rw [← hlen, ← this]
      rfl
    · intro p _
      obtain ⟨h0, h1⟩ := secondaryIdx_range ctx p.im hn hb
      have h1' : secondaryIdx ctx p.im < ((ctx.num_bins.toNat + 1 : ℕ) : ℤ) := by
        push_cast
        omega
      obtain ⟨heq, hlt⟩ :=
        pyIdx_of_range (ctx.num_bins.toNat + 1) (secondaryIdx ctx p.im) h0 h1'
      exact ⟨(secondaryIdx ctx p.im).toNat, hlt, heq⟩

/-- C7, witness: partition completeness at `ctx2` and a concrete
three-point scan covering the full ion-mobility range. -/
theorem C7_witness :
    ((primaryBins ctx2 pts7).map List.length).sum = pts7.length ∧
    ((secondaryBins ctx2 pts7).map List.length).sum = pts7.length :=
  C7_partition ctx2 pts7 (by decide) (by decide) (by decide)

/-! ## Claim C9: the Bin Spectrum Synthesizer -/

theorem processScans_char (ctx : BinCtx) (b : ℕ) (hb : b < ctx.num_bins.toNat) :
    ∀ (scans : List Scan) (e0 : ℕ → List Spectrum),
      processScans ctx scans e0 b =
        e0 b ++ ((scans.filter fun s =>
            decide (s.msLevel = 1) && !((primaryBinContents ctx (getPoints s) b).isEmpty)).map
          fun s => mkSpec s.rt (binnedAggregated ctx (getPoints s) b)) := by
  intro scans
  induction scans with
  | nil => intro e0; simp [processScans]
  | cons s rest ih =>
    intro e0
    rw [processScans, List.foldl_cons]
    by_cases h1 : s.msLevel = 1
    · rw [if_pos h1]
      have step : processScans ctx rest (processScanPass1 ctx e0 s) b =
          (processScanPass1 ctx e0 s) b ++ _ := ih (processScanPass1 ctx e0 s)
      rw [processScans] at step
      rw [step]
      by_cases h2 : primaryBinContents ctx (getPoints s) b = []
      · have hfalse : ¬ ((decide (s.msLevel = 1) &&
            !((primaryBinContents ctx (getPoints s) b).isEmpty)) = true) := by
          simp [h2]
        rw [List.filter_cons, if_neg hfalse]
        have hskip : processScanPass1 ctx e0 s b = e0 b := by
          simp only [processScanPass1]
          exact if_neg (by simp [h2])
        rw [hskip]
      · have htrue : (decide (s.msLevel = 1) &&
            !((primaryBinContents ctx (getPoints s) b).isEmpty)) = true := by
          simp [h1, List.isEmpty_iff, h2]
        rw [List.filter_cons, if_pos htrue, List.map_cons]
        have hstep : processScanPass1 ctx e0 s b =
            e0 b ++ [mkSpec s.rt (binnedAggregated ctx (getPoints s) b)] := by
          simp only [processScanPass1]
          exact if_pos ⟨hb, h2⟩
        rw [hstep, List.append_assoc]
        rfl
    · rw [if_neg h1]
      have step := ih e0
      rw [processScans] at step
      rw [step]
      rw [List.filter_cons, if_neg (by simp [h1])]

/-- C9, counterexample.  `bin_spectrum` skips empty bins
(`if len(temp_bins[i]) == 0: continue`): with `ctx2` and one MS-level-1
scan whose only point falls in primary bin 0, one scan is processed but
bin 1's spectrum collection stays empty — each bin does *not* get one
spectrum per processed scan. -/
theorem C9_counterexample :
    (processScans ctx2 [scan9] (fun _ => []) 1).length = 0 ∧
    ([scan9].filter fun s => decide (s.msLevel = 1)).length = 1 := by
  decide

/-- C9, amended.  For every bin `b`, the spectrum collection after
processing equals — in scan-processing order — one synthesized spectrum
(the aggregated `(mz, intensity)` pairs plus the parallel ion-mobility
side channel, at the scan's retention time) for each MS-level-1 scan that
places at least one point in bin `b`; scans contributing nothing to the
bin are skipped. -/
theorem C9_spectrum_per_contributing_scan (ctx : BinCtx) (scans : List Scan) (b : ℕ)
    (hb : b < ctx.num_bins.toNat) :
    processScans ctx scans (fun _ => []) b =
      ((scans.filter fun s =>
          decide (s.msLevel = 1) && !((primaryBinContents ctx (getPoints s) b).isEmpty)).map
        fun s => mkSpec s.rt (binnedAggregated ctx (getPoints s) b)) := by
  have := processScans_char ctx b hb scans (fun _ => [])
  simpa using this

/-- C9, witness: the per-contributing-scan characterization at `ctx2`,
one concrete scan and bin 0. -/
theorem C9_witness :
    processScans ctx2 [scan9] (fun _ => []) 0 =
      (([scan9].filter fun s =>
          decide (s.msLevel = 1) && !((primaryBinContents ctx2 (getPoints s) 0).isEmpty)).map
        fun s => mkSpec s.rt (binnedAggregated ctx2 (getPoints s) 0)) :=
  C9_spectrum_per_contributing_scan ctx2 [scan9] 0 (by decide)

/-! ## Peak picker: walk lemmas -/

/-- Unfolding of one step of a directional walk, with the intermediate
state written out. -/
theorem walk_cons (P : PPParams) (ii ip : ℚ) (s : PSample) (rest : List PSample)
    (prev : ℚ) (first : Bool) (st : WSt) :
    walk P ii ip (s :: rest) prev first st =
      if s.picked then (st, WExit.pickedStop)
      else if exceedsWindow P.window_size |s.pos - ip| then (st, WExit.windowStop)
      else if prev < s.intensity then
        if P.strict || st.sflag || first then (st, WExit.incAbort)
        else
          if st.threshold + 1 ≤ st.count + 1 ∧ s.intensity ≤ ii * P.small_peak then
            (⟨st.count + 1, st.threshold + 1, st.total + s.intensity, true⟩, WExit.satisfied)
          else
            walk P ii ip rest s.intensity false
              ⟨st.count + 1, st.threshold + 1, st.total + s.intensity, true⟩
      else
        if st.threshold ≤ st.count + 1 ∧ s.intensity ≤ ii * P.small_peak then
          (⟨st.count + 1, st.threshold, st.total + s.intensity, st.sflag⟩, WExit.satisfied)
        else
          walk P ii ip rest s.intensity false
            ⟨st.count + 1, st.threshold, st.total + s.intensity, st.sflag⟩ := rfl

/-- A directional walk never decreases the required count, and raises it
at most once — and not at all if the concession is already spent. -/
theorem walk_threshold_bound (P : PPParams) (ii ip : ℚ) :
    ∀ (l : List PSample) (prev : ℚ) (first : Bool) (st : WSt),
      st.threshold ≤ (walk P ii ip l prev first st).1.threshold ∧
      (walk P ii ip l prev first st).1.threshold ≤
        st.threshold + (if st.sflag then 0 else 1) := by
  intro l
  induction l with
  | nil =>
    intro prev first st
    simp only [walk]
    exact ⟨le_refl _, by split <;> omega⟩
  | cons s rest ih =>
    intro prev first st
    by_cases hp : s.picked = true
    · rw [walk_cons, if_pos hp]
      exact ⟨le_refl _, by dsimp only; split <;> omega⟩
    · rw [walk_cons, if_neg hp]
      by_cases hw : exceedsWindow P.window_size |s.pos - ip| = true
      · rw [if_pos hw]
        exact ⟨le_refl _, by dsimp only; split <;> omega⟩
      · rw [if_neg hw]
        by_cases hinc : prev < s.intensity
        · rw [if_pos hinc]
          by_cases habort : (P.strict || st.sflag || first) = true
          · rw [if_pos habort]
            exact ⟨le_refl _, by dsimp only; split <;> omega⟩
          · rw [if_neg habort]
            have hsf : st.sflag = false := by
              rcases hb : st.sflag
              · rfl
              · rw [hb] at habort; simp at habort
            by_cases hsat : st.threshold + 1 ≤ st.count + 1 ∧ s.intensity ≤ ii * P.small_peak
            · rw [if_pos hsat]
              dsimp only
              simp only [hsf, Bool.false_eq_true, if_false]
              exact ⟨by omega, by omega⟩
            · rw [if_neg hsat]
              have hrec := ih s.intensity false
                ⟨st.count + 1, st.threshold + 1, st.total + s.intensity, true⟩
              obtain ⟨hr1, hr2⟩ := hrec
              dsimp only at hr1 hr2
              simp only [if_true] at hr2
              simp only [hsf, Bool.false_eq_true, if_false]
              exact ⟨by omega, by omega⟩
        · rw [if_neg hinc]
          by_cases hsat2 : st.threshold ≤ st.count + 1 ∧ s.intensity ≤ ii * P.small_peak
          · rw [if_pos hsat2]
            exact ⟨le_refl _, by dsimp only; split <;> omega⟩
          · rw [if_neg hsat2]
            have hrec := ih s.intensity false
              ⟨st.count + 1, st.threshold, st.total + s.intensity, st.sflag⟩
            obtain ⟨hr1, hr2⟩ := hrec
            dsimp only at hr1 hr2
            rcases hb : st.sflag <;>
              simp only [hb, Bool.false_eq_true, if_false, if_true] at hr1 hr2 ⊢ <;> omega

/-! ## Claim C3: the non-strict concession -/

/-- C3.  One step of a directional walk at a sample whose intensity
exceeds its predecessor's: if `strict` is set, or the concession was
already used (`sflag`), or the increase is at the seed's immediate
neighbour, the walk aborts with the state unchanged; otherwise the single
concession is consumed (`sflag` becomes true), the required count rises by
exactly one, and the walk continues (or stops satisfied) with the sample
absorbed.  Moreover (second conjunct) a walk raises the required count at
most once per direction: by exactly at most one from a fresh state, and
never once the concession is spent. -/
theorem C3_concession (P : PPParams) (ii ip : ℚ) (s : PSample) (rest : List PSample)
    (prev : ℚ) (first : Bool) (st : WSt)
    (hp : s.picked = false)
    (hw : exceedsWindow P.window_size |s.pos - ip| = false)
    (hinc : prev < s.intensity) :
    (walk P ii ip (s :: rest) prev first st =
      if P.strict || st.sflag || first then (st, WExit.incAbort)
      else
        if st.threshold + 1 ≤ st.count + 1 ∧ s.intensity ≤ ii * P.small_peak then
          (⟨st.count + 1, st.threshold + 1, st.total + s.intensity, true⟩, WExit.satisfied)
        else
          walk P ii ip rest s.intensity false
            ⟨st.count + 1, st.threshold + 1, st.total + s.intensity, true⟩) ∧
    ∀ (l : List PSample) (pr : ℚ) (f : Bool) (st0 : WSt),
      st0.threshold ≤ (walk P ii ip l pr f st0).1.threshold ∧
      (walk P ii ip l pr f st0).1.threshold ≤
        st0.threshold + (if st0.sflag then 0 else 1) := by
  constructor
  · rw [walk_cons, if_neg (by simp [hp]), if_neg (by simp [hw]), if_pos hinc]
  · exact walk_threshold_bound P ii ip

/-- C3, witness: a concrete non-strict walk (seed intensity 5 at position
0, previous intensity 3, fresh state with `min_req = 1`) meeting an
increase away from the immediate neighbour: the concession is consumed,
the required count rises from 1 to 2, and the walk continues to
exhaustion with the sample absorbed. -/
theorem C3_witness :
    walk ⟨1, none, 1/10, false⟩ 5 0 [⟨1, 5, false⟩] 3 false ⟨0, 1, 3, false⟩ =
      (⟨1, 2, 8, true⟩, WExit.exhausted) := by
  rw [(C3_concession ⟨1, none, 1/10, false⟩ 5 0 ⟨1, 5, false⟩ [] 3 false ⟨0, 1, 3, false⟩
    rfl rfl (by decide)).1]
  decide

/-- A directional walk consumes some prefix of its walk-order list: the
count grows by the prefix length, the intensity accumulator grows by the
prefix's summed intensity, and every consumed sample was unpicked. -/
theorem walk_consume (P : PPParams) (ii ip : ℚ) :
    ∀ (l : List PSample) (prev : ℚ) (first : Bool) (st : WSt),
      ∃ n, n ≤ l.length ∧
        (walk P ii ip l prev first st).1.count = st.count + n ∧
        (walk P ii ip l prev first st).1.total =
          st.total + ((l.take n).map PSample.intensity).sum ∧
        ∀ x ∈ l.take n, x.picked = false := by
  intro l
  induction l with
  | nil =>
    intro prev first st
    exact ⟨0, by simp, by simp [walk], by simp [walk], by simp⟩
  | cons s rest ih =>
    intro prev first st
    by_cases hp : s.picked = true
    · rw [walk_cons, if_pos hp]
      exact ⟨0, by simp, by simp, by simp, by simp⟩
    · have hp' : s.picked = false := by
        rcases hb : s.picked
        · rfl
        · exact absurd hb hp
      rw [walk_cons, if_neg hp]
      by_cases hw : exceedsWindow P.window_size |s.pos - ip| = true
      · rw [if_pos hw]
        exact ⟨0, by simp, by simp, by simp, by simp⟩
      · rw [if_neg hw]
        by_cases hinc : prev < s.intensity
        · rw [if_pos hinc]
          by_cases habort : (P.strict || st.sflag || first) = true
          · rw [if_pos habort]
            exact ⟨0, by simp, by simp, by simp, by simp⟩
          · rw [if_neg habort]
            by_cases hsat : st.threshold + 1 ≤ st.count + 1 ∧ s.intensity ≤ ii * P.small_peak
            · rw [if_pos hsat]
              refine ⟨1, by simp, by simp, ?_, ?_⟩
              · simp [List.take_succ_cons]
              · intro x hx
                simp only [List.take_succ_cons, List.take_zero, List.mem_singleton] at hx
                subst hx
                exact hp'
            · rw [if_neg hsat]
              obtain ⟨n, hlen, hcount, htotal, hpicked⟩ := ih s.intensity false
                ⟨st.count + 1, st.threshold + 1, st.total + s.intensity, true⟩
              dsimp only at hcount htotal
              refine ⟨n + 1, by simp; omega, by rw [hcount]; omega, ?_, ?_⟩
              · rw [htotal, List.take_succ_cons, List.map_cons, List.sum_cons]
                ring
              · intro x hx
                rw [List.take_succ_cons] at hx
                rcases List.mem_cons.mp hx with h | h
                · subst h; exact hp'
                · exact hpicked x h
        · rw [if_neg hinc]
          by_cases hsat2 : st.threshold ≤ st.count + 1 ∧ s.intensity ≤ ii * P.small_peak
          · rw [if_pos hsat2]
            refine ⟨1, by simp, by simp, ?_, ?_⟩
            · simp [List.take_succ_cons]
            · intro x hx
              simp only [List.take_succ_cons, List.take_zero, List.mem_singleton] at hx
              subst hx
              exact hp'
          · rw [if_neg hsat2]
            obtain ⟨n, hlen, hcount, htotal, hpicked⟩ := ih s.intensity false
              ⟨st.count + 1, st.threshold, st.total + s.intensity, st.sflag⟩
            dsimp only at hcount htotal
            refine ⟨n + 1, by simp; omega, by rw [hcount]; omega, ?_, ?_⟩
            · rw [htotal, List.take_succ_cons, List.map_cons, List.sum_cons]
              ring
            · intro x hx
              rw [List.take_succ_cons] at hx
              rcases List.mem_cons.mp hx with h | h
              · subst h; exact hp'
              · exact hpicked x h

/-- Taking `n` elements of a reversed list and reversing back yields the
last `n` elements of the original list. -/
theorem take_reverse_reverse {α : Type} (t : List α) (n : ℕ) (h : n ≤ t.length) :
    (t.reverse.take n).reverse = t.drop (t.length - n) := by
  have hA : ((t.drop (t.length - n)).reverse).length = n := by
    rw [List.length_reverse, List.length_drop]
    omega
  have htl := List.take_left (t.drop (t.length - n)).reverse (t.take (t.length - n)).reverse
  rw [hA] at htl
  calc (t.reverse.take n).reverse
      = (((t.take (t.length - n) ++ t.drop (t.length - n)).reverse).take n).reverse := by
        rw [List.take_append_drop]
    _ = (((t.drop (t.length - n)).reverse ++ (t.take (t.length - n)).reverse).take n).reverse := by
        rw [List.reverse_append]
    _ = ((t.drop (t.length - n)).reverse).reverse := by
        rw [htl]
    _ = t.drop (t.length - n) := List.reverse_reverse _

/-- Decomposition of an accepted span `[i - nL, i + nR]` around the seed
`i`: the left part is the prefix the left walk consumed (in reverse), the
right part is the prefix the right walk consumed. -/
theorem spanSlice_decomp (samples : List PSample) (i nL nR : ℕ)
    (hi : i < samples.length) (hL : nL ≤ i) (_hR : nR ≤ samples.length - (i + 1)) :
    spanSlice samples (i - nL) (i + nR) =
      ((samples.take i).reverse.take nL).reverse ++
        samples[i] :: ((samples.drop (i + 1)).take nR) := by
  have hlent : (samples.take i).length = i := by
    rw [List.length_take]
    omega
  have h1 : ((samples.take i).reverse.take nL).reverse = (samples.take i).drop (i - nL) := by
    rw [take_reverse_reverse _ _ (by rw [hlent]; omega), hlent]
  have key : samples.drop (i - nL) =
      (samples.take i).drop (i - nL) ++ samples[i] :: samples.drop (i + 1) := by
    conv_lhs => rw [← List.take_append_drop i samples]
    rw [List.drop_append_eq_append_drop, hlent, (show i - nL - i = 0 by omega),
      List.drop_zero, List.drop_eq_getElem_cons hi]
  have hlen2 : ((samples.take i).drop (i - nL)).length = nL := by
    rw [List.length_drop, hlent]
    omega
  rw [spanSlice, key, (show i + nR + 1 - (i - nL) = nL + (nR + 1) by omega),
    List.take_append_eq_append_take, hlen2,
    List.take_of_length_le (by rw [hlen2]; omega),
    (show nL + (nR + 1) - nL = nR + 1 by omega), List.take_succ_cons, h1]

/-- Inversion of `processSeed` on an accepted seed: the accepted span is
`[i - nL, i + nR]` for the prefix lengths `nL`, `nR` consumed by the two
walks, the emitted intensity is the seed's plus the two consumed prefix
sums, the emitted position is the intensity-weighted span average, and
every consumed sample (and the seed) was unpicked. -/
theorem processSeed_inv (P : PPParams) (samples : List PSample) (i : ℕ)
    (pk : Peak) (low high : ℕ)
    (h : processSeed P samples i = some (pk, low, high)) :
    ∃ (s0 : PSample) (nL nR : ℕ),
      samples[i]? = some s0 ∧ s0.picked = false ∧
      i < samples.length ∧ nL ≤ i ∧ nR ≤ samples.length - (i + 1) ∧
      low = i - nL ∧ high = i + nR ∧
      pk.pos = spanWeightedPos samples low high pk.intensity ∧
      pk.intensity =
        s0.intensity +
          (((samples.take i).reverse.take nL).map PSample.intensity).sum +
          (((samples.drop (i + 1)).take nR).map PSample.intensity).sum ∧
      (∀ x ∈ (samples.take i).reverse.take nL, x.picked = false) ∧
      (∀ x ∈ (samples.drop (i + 1)).take nR, x.picked = false) := by
  rcases hgi : samples[i]? with _ | s0
  · rw [processSeed, hgi] at h
    exact absurd h (by simp)
  · rw [processSeed, hgi] at h
    dsimp only at h
    obtain ⟨hi, hval⟩ := List.getElem?_eq_some.mp hgi
    by_cases hs0 : s0.picked = true
    · rw [if_pos hs0] at h
      exact absurd h (by simp)
    · rw [if_neg hs0] at h
      have hs0' : s0.picked = false := by
        rcases hb : s0.picked
        · rfl
        · exact absurd hb hs0
      obtain ⟨nL, hLlen, hLcount, hLtotal, hLpicked⟩ := walk_consume P s0.intensity s0.pos
        ((samples.take i).reverse) s0.intensity true ⟨0, P.min_req, s0.intensity, false⟩
      obtain ⟨nR, hRlen, hRcount, hRtotal, hRpicked⟩ := walk_consume P s0.intensity s0.pos
        (samples.drop (i + 1)) s0.intensity true
        ⟨0, P.min_req,
          (walk P s0.intensity s0.pos ((samples.take i).reverse) s0.intensity true
            ⟨0, P.min_req, s0.intensity, false⟩).1.total, false⟩
      dsimp only at hLcount hLtotal hRcount hRtotal
      rw [Nat.zero_add] at hLcount hRcount
      split_ifs at h with hc1 hc2
      obtain ⟨hpk, hlow, hhigh⟩ := h
      have hLlen' : nL ≤ i := by
        rw [List.length_reverse, List.length_take] at hLlen
        omega
      have hRlen' : nR ≤ samples.length - (i + 1) := by
        rw [List.length_drop] at hRlen
        omega
      refine ⟨s0, nL, nR, rfl, hs0', hi, hLlen', hRlen', ?_, ?_, ?_, ?_, ?_, ?_⟩
      · rw [hLcount]
      · rw [hRcount]
      · rfl
      · dsimp only
        rw [hRtotal, hLtotal]
      · exact hLpicked
      · exact hRpicked

/-! ## Claim C4: composite peak intensity and position -/

/-- C4.  For every seed accepted by the picker with inclusive span
`[low, high]`, the emitted composite peak's intensity equals the sum of
the intensities of all samples in the span, and its position equals
`Σ position_k * (intensity_k / total_intensity)` over the span. -/
theorem C4_composite_peak (P : PPParams) (samples : List PSample) (i : ℕ)
    (pk : Peak) (low high : ℕ)
    (h : processSeed P samples i = some (pk, low, high)) :
    pk.intensity = spanIntensity samples low high ∧
    pk.pos = spanWeightedPos samples low high pk.intensity := by
  obtain ⟨s0, nL, nR, hgi, hs0, hi, hL, hR, hlow, hhigh, hpos, hint, _, _⟩ :=
    processSeed_inv P samples i pk low high h
  have hval : samples[i] = s0 := by
    obtain ⟨_, hv⟩ := List.getElem?_eq_some.mp hgi
    exact hv
  refine ⟨?_, hpos⟩
  rw [hlow, hhigh, spanIntensity, spanSlice_decomp samples i nL nR hi hL hR, hval]
  rw [List.map_append, List.sum_append, List.map_cons, List.sum_cons]
  rw [List.map_reverse, List.sum_reverse]
  rw [hint]
  ring

/-- C4, witness: the accepted seed of `samples4` (seed intensity 10,
neighbours 6 and 4, `min_req = 1`) emits the composite peak with
intensity `6 + 10 + 4 = 20` and weighted position `99.99`. -/
theorem C4_witness :
    (Peak.mk (9999/100) 20).intensity = spanIntensity samples4 0 2 ∧
    (Peak.mk (9999/100) 20).pos =
      spanWeightedPos samples4 0 2 (Peak.mk (9999/100) 20).intensity :=
  C4_composite_peak P4 samples4 1 ⟨9999/100, 20⟩ 0 2 (by decide)

/-! ## Claim C10: accepted spans are pairwise disjoint -/

theorem markSpan_getElem (low high : ℕ) :
    ∀ (l : List PSample) (k0 j : ℕ),
      (markSpan low high k0 l)[j]? =
        (l[j]?).map fun s =>
          if low ≤ k0 + j ∧ k0 + j ≤ high then { s with picked := true } else s := by
  intro l
  induction l with
  | nil => intro k0 j; simp [markSpan]
  | cons s rest ih =>
    intro k0 j
    cases j with
    | zero => simp [markSpan]
    | succ j' =>
      rw [markSpan, List.getElem?_cons_succ, List.getElem?_cons_succ, ih (k0 + 1) j']
      have harith : k0 + 1 + j' = k0 + (j' + 1) := by omega
      rw [harith]

theorem markSpan_length (low high : ℕ) :
    ∀ (k0 : ℕ) (l : List PSample), (markSpan low high k0 l).length = l.length := by
  intro k0 l
  induction l generalizing k0 with
  | nil => rfl
  | cons s rest ih => rw [markSpan]; simp [ih]

theorem pickedAt_markSpan_mono (low high : ℕ) (l : List PSample) (k : ℕ)
    (h : pickedAt l k = true) : pickedAt (markSpan low high 0 l) k = true := by
  rw [pickedAt] at h ⊢
  rw [markSpan_getElem]
  rcases hk : l[k]? with _ | s
  · simp
  · rw [hk] at h
    simp only [Option.map_some']
    split
    · rfl
    · exact h

theorem pickedAt_markSpan_set (low high : ℕ) (l : List PSample) (k : ℕ)
    (h1 : low ≤ k) (h2 : k ≤ high) (h3 : k < l.length) :
    pickedAt (markSpan low high 0 l) k = true := by
  rw [pickedAt, markSpan_getElem, List.getElem?_eq_getElem h3]
  simp only [Option.map_some']
  rw [if_pos ⟨by omega, by omega⟩]

theorem processSeed_span (P : PPParams) (samples : List PSample) (i : ℕ)
    (pk : Peak) (low high : ℕ)
    (h : processSeed P samples i = some (pk, low, high)) :
    low ≤ i ∧ i ≤ high ∧ high < samples.length ∧
    ∀ k, low ≤ k → k ≤ high → pickedAt samples k = false := by
  obtain ⟨s0, nL, nR, hgi, hs0, hi, hL, hR, hlow, hhigh, _, _, hLp, hRp⟩ :=
    processSeed_inv P samples i pk low high h
  obtain ⟨_, hval⟩ := List.getElem?_eq_some.mp hgi
  have hmem : ∀ x ∈ spanSlice samples low high, x.picked = false := by
    rw [hlow, hhigh, spanSlice_decomp samples i nL nR hi hL hR]
    intro x hx
    rcases List.mem_append.mp hx with hx1 | hx2
    · exact hLp x (List.mem_reverse.mp hx1)
    · rcases List.mem_cons.mp hx2 with hx3 | hx4
      · subst hx3; rw [hval]; exact hs0
      · exact hRp x hx4
  refine ⟨by omega, by omega, by omega, ?_⟩
  intro k hk1 hk2
  have hklt : k < samples.length := by omega
  have hidx : (spanSlice samples low high)[k - low]? = samples[k]? := by
    rw [spanSlice, List.getElem?_take, if_pos (by omega), List.getElem?_drop,
      (show low + (k - low) = k by omega)]
  have hsome : samples[k]? = some samples[k] := List.getElem?_eq_getElem hklt
  have hmem2 : samples[k] ∈ spanSlice samples low high :=
    List.getElem?_mem (by rw [hidx]; exact hsome)
  rw [pickedAt, hsome]
  exact hmem samples[k] hmem2

theorem pickLoop_disjoint (P : PPParams) :
    ∀ (order : List ℕ) (samples : List PSample) (acc : List (Peak × ℕ × ℕ)),
      (∀ x ∈ acc, x.2.1 ≤ x.2.2 ∧ x.2.2 < samples.length ∧
        ∀ k, x.2.1 ≤ k → k ≤ x.2.2 → pickedAt samples k = true) →
      acc.Pairwise spanDisj →
      ((pickLoop P order samples acc).2).Pairwise spanDisj := by
  intro order
  induction order with
  | nil =>
    intro samples acc _ hPw
    simpa [pickLoop] using hPw
  | cons i order ih =>
    intro samples acc hInv hPw
    rcases hps : processSeed P samples i with _ | v
    · simp only [pickLoop, hps]
      exact ih samples acc hInv hPw
    · obtain ⟨pk, lowhigh⟩ := v
      obtain ⟨low, high⟩ := lowhigh
      obtain ⟨hli, hih, hhl, hunp⟩ := processSeed_span P samples i pk low high hps
      simp only [pickLoop, hps]
      apply ih (markSpan low high 0 samples) (acc ++ [(pk, low, high)])
      · intro x hx
        rcases List.mem_append.mp hx with hx1 | hx2
        · obtain ⟨b1, b2, b3⟩ := hInv x hx1
          refine ⟨b1, ?_, ?_⟩
          · rw [markSpan_length]; exact b2
          · intro k hk1 hk2
            exact pickedAt_markSpan_mono low high samples k (b3 k hk1 hk2)
        · rw [List.mem_singleton] at hx2
          subst hx2
          dsimp only
          refine ⟨by omega, ?_, ?_⟩
          · rw [markSpan_length]; omega
          · intro k hk1 hk2
            exact pickedAt_markSpan_set low high samples k hk1 hk2 (by omega)
      · rw [List.pairwise_append]
        refine ⟨hPw, List.pairwise_singleton _ _, ?_⟩
        intro a ha b hb
        rw [List.mem_singleton] at hb
        subst hb
        obtain ⟨a1, a2, a3⟩ := hInv a ha
        by_contra hcon
        rw [spanDisj] at hcon
        push_neg at hcon
        obtain ⟨hc1, hc2⟩ := hcon
        have h1 := a3 (max a.2.1 low) (le_max_left _ _) (max_le a1 hc1)
        have h2 := hunp (max a.2.1 low) (le_max_right _ _)
          (max_le hc2 (le_trans hli hih))
        rw [h1] at h2
        simp at h2

/-- C10.  For every seed visitation order — which covers both the
sequential mode (`seqOrder`) and the descending-intensity mode — the
accepted spans emitted by the picker loop on one scan are pairwise
disjoint index intervals: every sample is marked picked at most once and
contributes to at most one composite peak, because a walk stops at any
already-picked sample and a picked seed is skipped. -/
theorem C10_spans_disjoint (P : PPParams) (order : List ℕ) (samples : List PSample) :
    ((pickLoop P order samples []).2).Pairwise spanDisj :=
  pickLoop_disjoint P order samples [] (by simp) List.Pairwise.nil

end FragToPre
